import Mathlib

/-!
# mhist: buffered disk store

A shallow embedding of `disk_store.go` (package `mhist`): the buffer and commit
controller (`Add`, `Listen`, `commit`, `handleAdd`) and the range query
(`handleRead`, `appendPassingMeasurements`).

The store calls into two collaborators whose sources are separate files of the
package: the metadata registry (`DiskMeta`) and the file manager
(`GetSortedFileList`, `WriteBlockToFile`, `AppendBlockToFile`,
`GetFilesInTimeRange`, reading and removing files). Both appear here as records
of operations over an arbitrary state type, so that every statement about the
store's own control flow holds whatever these operations do. Reference
instances that follow the written specification are given further down and are
used where a statement is about the contents of the files.

The `float64` payload of a record is never computed on by the store, only
copied and used as a lookup key, so it is an arbitrary type `V` with a zero
(the value of an unassigned Go variable).
-/

namespace Mhist

/-! ## Data model -/

/-- The kind tag of a series (`models.MeasurementType`). `unknown` is the zero
value, which `GetTypeForID` yields for an ID it cannot resolve. -/
inductive MeasurementType where
  | unknown
  | MeasurementNumerical
  | MeasurementCategorical
  | MeasurementRaw
  deriving DecidableEq, Repr

/-- The three typed measurements of package `models`. -/
inductive Measurement (V : Type) where
  | Numerical (Ts : Int) (Value : V)
  | Categorical (Ts : Int) (Value : String)
  | Raw (Ts : Int) (Value : List Nat)
  deriving DecidableEq, Repr

/-- The kind of a measurement: `measurement.Type()`. -/
def Measurement.kind {V : Type} : Measurement V → MeasurementType
  | .Numerical _ _ => .MeasurementNumerical
  | .Categorical _ _ => .MeasurementCategorical
  | .Raw _ _ => .MeasurementRaw

/-- The timestamp of a measurement: `measurement.Timestamp()`. -/
def Measurement.Timestamp {V : Type} : Measurement V → Int
  | .Numerical ts _ => ts
  | .Categorical ts _ => ts
  | .Raw ts _ => ts

/-- One fixed-width record: `type SerializedMeasurement struct`. -/
structure SerializedMeasurement (V : Type) where
  ID : Int
  Ts : Int
  Value : V
  Size : Int
  deriving DecidableEq, Repr

/-- Width of one record in bytes, `unsafe.Sizeof(SerializedMeasurement{})`: four
eight-byte fields. -/
def serializedMeasurementSize : Int := 32

/-- The commit threshold: `const maxBuffer = 12 * 1024`. -/
def maxBuffer : Int := 12 * 1024

/-- A block is the sequence of records in insertion order. -/
abbrev Block (V : Type) := List (SerializedMeasurement V)

/-- Modelled from the spec: `Block.Size()` is declared outside `disk_store.go`;
the size in bytes is the record count times the fixed record width. -/
def Block.Size {V : Type} (b : Block V) : Int :=
  (b.length : Int) * serializedMeasurementSize

/-- The message sent over `addChan`: `type addMessage struct`. -/
structure addMessage (V : Type) where
  name : String
  measurement : SerializedMeasurement V
  rawValue : List Nat
  deriving DecidableEq, Repr

/-- The answer to a query, `type readResult map[string][]models.Measurement`,
as the sequence stored under each name. A name is a key of the Go map exactly
when its sequence is not empty, because a key is only ever created by appending
to it. An entry is `none` where the Go slice holds a nil `models.Measurement`. -/
abbrev readResult (V : Type) := String → List (Option (Measurement V))

/-- The empty map `readResult{}`. -/
def readResult.empty {V : Type} : readResult V := fun _ => []

/-- The statement `result[name] = append(result[name], measurement)`. -/
def readResult.append {V : Type} (result : readResult V) (name : String)
    (measurement : Option (Measurement V)) : readResult V :=
  fun n => if n = name then result n ++ [measurement] else result n

/-- The filter collection built from a filter definition, seen through its only
use, `filter.Passes(name, measurement)`. -/
abbrev FilterCollection (V : Type) := String → Option (Measurement V) → Bool

/-- A descriptor of one data file as the file manager lists it: the fields
`name`, `size` and `latestTs` read by `disk_store.go`, and the oldest timestamp
that the overlap selection of the specification uses. -/
structure FileInfo where
  name : String
  size : Int
  oldestTs : Int
  latestTs : Int
  deriving DecidableEq, Repr

/-- Modelled from the spec: `FileList.TotalSize()` is declared outside
`disk_store.go`; it is the sum of the sizes of the listed files. -/
def TotalSize (fileList : List FileInfo) : Int :=
  (fileList.map FileInfo.size).sum

/-! ## The collaborators, as interfaces -/

/-- The operations of `DiskMeta` that the store calls, over a registry state
`M`. `GetOrCreateID` yields the ID or an error, with the registry afterwards;
`ValueIDToValue meta id v` is the lookup
`CategoricalMapping.GetOrCreateValueIDMap(id).ValueIDToValue[v]`, whose lazily
created empty map answers every lookup with the empty string. -/
structure Registry (M V : Type) where
  GetOrCreateID : M → String → MeasurementType → Except String Int × M
  GetValueIDForCategoricalValue : M → Int → String → V × M
  GetNameForID : M → Int → String
  GetTypeForID : M → Int → MeasurementType
  ValueIDToValue : M → Int → V → String

/-- The file operations that the store calls, over a state `D` of the data
directory. The results of `WriteBlockToFile`, `AppendBlockToFile` and
`os.Remove` are discarded by the store, so each is just its effect on the
directory (a failed operation is one that leaves it as it was). `ReadFile` is
`ioutil.ReadFile` followed by `BlockFromByteSlice`. -/
structure FileManager (D V : Type) where
  GetSortedFileList : D → Except String (List FileInfo)
  WriteBlockToFile : Block V → D → D
  AppendBlockToFile : FileInfo → Block V → D → D
  Remove : String → D → D
  GetFilesInTimeRange : Int → Int → D → Except String (List FileInfo)
  ReadFile : String → D → Except String (Block V)

/-- The state owned by the store: `type DiskStore struct` with the fields of the
embedded `DiskWriter` that it reads (`block`, `maxFileSize`, `maxDiskSize`), the
registry, and the data directory the package-level functions act on. -/
structure DiskStore (M D V : Type) where
  block : Block V
  maxFileSize : Int
  maxDiskSize : Int
  meta : M
  disk : D

/-! ## The store -/

section Store

variable {M D V : Type}

/-- The producer side, `func (s *DiskStore) Add`: the registry afterwards and
the message put on `addChan`, or no message when `GetOrCreateID` fails. -/
def Add [Zero V] (reg : Registry M V) (s : DiskStore M D V) (name : String)
    (measurement : Measurement V) : M × Option (addMessage V) :=
  match reg.GetOrCreateID s.meta name measurement.kind with
  | (.error _, meta1) => (meta1, none)
  | (.ok id, meta1) =>
    match measurement with
    | .Numerical ts value =>
      (meta1, some { name := name,
                     measurement := { ID := id, Ts := ts, Value := value, Size := 0 },
                     rawValue := [] })
    | .Categorical ts value =>
      let r := reg.GetValueIDForCategoricalValue meta1 id value
      (r.2, some { name := name,
                   measurement := { ID := id, Ts := ts, Value := r.1, Size := 0 },
                   rawValue := [] })
    | .Raw ts value =>
      (meta1, some { name := name,
                     measurement := { ID := id, Ts := ts, Value := 0, Size := 0 },
                     rawValue := value })

/-- Commit the buffered block: `func (s *DiskStore) commit`. The deferred
truncation `s.block = s.block[:0]` is registered after the file list has been
obtained and runs on each of the three returns below it. -/
def commit (fm : FileManager D V) (s : DiskStore M D V) : DiskStore M D V :=
  if Block.Size s.block = 0 then s
  else
    match fm.GetSortedFileList s.disk with
    | .error _ => s
    | .ok [] => { s with disk := fm.WriteBlockToFile s.block s.disk, block := [] }
    | .ok (oldestFile :: rest) =>
      let fileList := oldestFile :: rest
      let latestFile := fileList.getLast (List.cons_ne_nil oldestFile rest)
      if latestFile.size < s.maxFileSize then
        { s with disk := fm.AppendBlockToFile latestFile s.block s.disk, block := [] }
      else
        let written := fm.WriteBlockToFile s.block s.disk
        if TotalSize fileList > s.maxDiskSize then
          { s with disk := fm.Remove oldestFile.name written, block := [] }
        else
          { s with disk := written, block := [] }

/-- Append one message to the block and commit past the threshold:
`func (s *DiskStore) handleAdd`. The staged `rawValue` is not used. -/
def handleAdd (fm : FileManager D V) (s : DiskStore M D V) (m : addMessage V) :
    DiskStore M D V :=
  let s1 : DiskStore M D V := { s with block := s.block ++ [m.measurement] }
  if Block.Size s1.block > maxBuffer then commit fm s1 else s1

/-- One pass of the loop body of `appendPassingMeasurements` over a record. -/
def appendPassingMeasurement (reg : Registry M V) (s : DiskStore M D V)
    (start end_ : Int) (filter : FilterCollection V) (result : readResult V)
    (serializedMeasurement : SerializedMeasurement V) : readResult V :=
  let name := reg.GetNameForID s.meta serializedMeasurement.ID
  if name = "" then result
  else if serializedMeasurement.Ts < start ∨ serializedMeasurement.Ts > end_ then result
  else
    let measurementType := reg.GetTypeForID s.meta serializedMeasurement.ID
    if measurementType = MeasurementType.unknown then result
    else
      let measurement : Option (Measurement V) :=
        match measurementType with
        | .MeasurementNumerical =>
          some (.Numerical serializedMeasurement.Ts serializedMeasurement.Value)
        | .MeasurementCategorical =>
          some (.Categorical serializedMeasurement.Ts
            (reg.ValueIDToValue s.meta serializedMeasurement.ID serializedMeasurement.Value))
        | _ => none
      if filter name measurement then result.append name measurement else result

/-- Scan a block into the result: `func (s *DiskStore) appendPassingMeasurements`. -/
def appendPassingMeasurements (reg : Registry M V) (s : DiskStore M D V)
    (block : Block V) (start end_ : Int) (filter : FilterCollection V)
    (result : readResult V) : readResult V :=
  block.foldl (appendPassingMeasurement reg s start end_ filter) result

/-- Answer a range query: `func (s *DiskStore) handleRead`. A file that cannot be
read is skipped; the buffered block is scanned when no file was selected or the
range ends after the latest timestamp of the last selected file. -/
def handleRead (fm : FileManager D V) (reg : Registry M V) (s : DiskStore M D V)
    (start end_ : Int) (filter : FilterCollection V) : readResult V :=
  match fm.GetFilesInTimeRange start end_ s.disk with
  | .error _ => readResult.empty
  | .ok files =>
    let result := files.foldl (fun result file =>
      match fm.ReadFile file.name s.disk with
      | .error _ => result
      | .ok block => appendPassingMeasurements reg s block start end_ filter result)
      readResult.empty
    match files.getLast? with
    | none => appendPassingMeasurements reg s s.block start end_ filter result
    | some lastFile =>
      if end_ > lastFile.latestTs then
        appendPassingMeasurements reg s s.block start end_ filter result
      else result

/-- A call of `Add` by a producer followed by the loop taking the message off
`addChan` and running `handleAdd` on it (the channel is unbuffered, so `Add`
returns once the loop has received the message). -/
def AddThenHandle [Zero V] (fm : FileManager D V) (reg : Registry M V)
    (s : DiskStore M D V) (name : String) (measurement : Measurement V) :
    DiskStore M D V :=
  match Add reg s name measurement with
  | (meta1, none) => { s with meta := meta1 }
  | (meta1, some message) => handleAdd fm { s with meta := meta1 } message

/-- The events the loop of `Listen` selects on. -/
inductive Event (V : Type) where
  | stop
  | timer
  | read (fromTs toTs : Int) (filter : FilterCollection V)
  | add (message : addMessage V)

/-- The control loop, `func (s *DiskStore) Listen`, over the events in the order
the loop receives them; each event comes with the behaviour of the file
operations while it is handled. The loop ends at the first `stop`. The result
is the final state and the replies sent to the readers, oldest first. -/
def Listen (reg : Registry M V) :
    DiskStore M D V → List (FileManager D V × Event V) → DiskStore M D V × List (readResult V)
  | s, [] => (s, [])
  | s, (fm, .stop) :: _ => (commit fm s, [])
  | s, (fm, .timer) :: events => Listen reg (commit fm s) events
  | s, (fm, .read fromTs toTs filter) :: events =>
    let r := Listen reg s events
    (r.1, handleRead fm reg s fromTs toTs filter :: r.2)
  | s, (fm, .add message) :: events => Listen reg (handleAdd fm s message) events

end Store

/-! ## Reference instances of the collaborators -/

/-- One data file of the directory: its name and the records it holds, in the
order they were written. -/
structure DataFile (V : Type) where
  name : String
  records : Block V
  deriving DecidableEq, Repr

/-- Modelled from the spec: the descriptor of a file, declared outside
`disk_store.go`. The tracked byte size is that of the records; the latest
timestamp is that of the most recent (last written) record and the oldest that
of the first record. -/
def DataFile.info {V : Type} (f : DataFile V) : FileInfo :=
  { name := f.name
    size := Block.Size f.records
    oldestTs := (f.records.head?.map (fun r => r.Ts)).getD 0
    latestTs := (f.records.getLast?.map (fun r => r.Ts)).getD 0 }

/-- Modelled from the spec: `filesOverlapping(from, to)`, the test that a file's
range of timestamps `[oldestTs, latestTs]` intersects `[from, to]`. -/
def FileInfo.overlaps (start end_ : Int) (file : FileInfo) : Bool :=
  decide (file.oldestTs ≤ end_) && decide (start ≤ file.latestTs)

/-- Modelled from the spec: the file manager of section 4.3, whose source is not
part of `disk_store.go`, over a directory held as the list of its files from
oldest to newest. Listing yields the descriptors in that order; writing a block
creates a brand-new file, named `newName`, whose entire contents are the block;
appending adds the block at the end of the named file; removing deletes the
named file; the range selection keeps the files whose range of timestamps
intersects the queried one. Every operation succeeds, except reading a file
that does not exist. -/
def specFileManager {V : Type} (newName : String) : FileManager (List (DataFile V)) V where
  GetSortedFileList := fun d => .ok (d.map DataFile.info)
  WriteBlockToFile := fun b d => d ++ [{ name := newName, records := b }]
  AppendBlockToFile := fun file b d =>
    d.map (fun f => if f.name = file.name then { f with records := f.records ++ b } else f)
  Remove := fun name d => d.filter (fun f => decide (f.name ≠ name))
  GetFilesInTimeRange := fun start end_ d =>
    .ok ((d.map DataFile.info).filter (FileInfo.overlaps start end_))
  ReadFile := fun name d =>
    match d.find? (fun f => decide (f.name = name)) with
    | some f => .ok f.records
    | none => .error "no such file"

/-- The reference file manager at a moment when the directory cannot be listed:
`GetSortedFileList` and `GetFilesInTimeRange` fail. -/
def listFailingFileManager {V : Type} (newName : String) :
    FileManager (List (DataFile V)) V :=
  { specFileManager newName with
    GetSortedFileList := fun _ => .error "cannot list the data directory"
    GetFilesInTimeRange := fun _ _ _ => .error "cannot list the data directory" }

/-- The reference file manager at a moment when nothing can be written: writing
a new file and appending to a file both fail and leave the directory as it
was. -/
def writeFailingFileManager {V : Type} (newName : String) :
    FileManager (List (DataFile V)) V :=
  { specFileManager newName with
    WriteBlockToFile := fun _ d => d
    AppendBlockToFile := fun _ _ d => d }

/-- One entry of the registry: a series ID with its name and kind. -/
structure RegistryEntry where
  id : Int
  name : String
  kind : MeasurementType
  deriving DecidableEq, Repr

/-- The state of the reference registry: the entries in the order they were
created, and the interned categorical values as triples of series ID, value ID
and value. -/
structure RegistryState where
  entries : List RegistryEntry
  values : List (Int × Int × String)
  deriving DecidableEq, Repr

/-- Modelled from the spec: the metadata registry of section 4.1, whose source
is not part of `disk_store.go`, with integer value IDs. `GetOrCreateID` returns
the existing ID when the name is known with the same kind, allocates the next
ID when the name is unknown, and fails when the name is known with a different
kind, leaving the registry as it was. The lookups answer the empty name and the
unknown kind for an ID with no entry. -/
def specRegistry : Registry RegistryState Int where
  GetOrCreateID := fun meta name kind =>
    match meta.entries.find? (fun e => decide (e.name = name)) with
    | some e => if e.kind = kind then (.ok e.id, meta) else (.error "kind mismatch", meta)
    | none =>
      let id : Int := meta.entries.length + 1
      (.ok id, { meta with entries := meta.entries ++ [{ id := id, name := name, kind := kind }] })
  GetValueIDForCategoricalValue := fun meta id value =>
    match meta.values.find? (fun t => decide (t.1 = id) && decide (t.2.2 = value)) with
    | some t => (t.2.1, meta)
    | none =>
      let valueID : Int := (meta.values.filter (fun t => decide (t.1 = id))).length + 1
      (valueID, { meta with values := meta.values ++ [(id, valueID, value)] })
  GetNameForID := fun meta id =>
    match meta.entries.find? (fun e => decide (e.id = id)) with
    | some e => e.name
    | none => ""
  GetTypeForID := fun meta id =>
    match meta.entries.find? (fun e => decide (e.id = id)) with
    | some e => e.kind
    | none => MeasurementType.unknown
  ValueIDToValue := fun meta id valueID =>
    match meta.values.find? (fun t => decide (t.1 = id) && decide (t.2.1 = valueID)) with
    | some t => t.2.2
    | none => ""

/-- The filter that lets every measurement pass. -/
def passAll {V : Type} : FilterCollection V := fun _ _ => true

/-! ## Sample data -/

/-- A registry that knows the numerical series `temperature` under ID 1. -/
def sampleMeta : RegistryState :=
  { entries := [{ id := 1, name := "temperature", kind := .MeasurementNumerical }]
    values := [] }

/-- The record of series 1 with the given timestamp and value. -/
def sampleRecord (ts value : Int) : SerializedMeasurement Int :=
  { ID := 1, Ts := ts, Value := value, Size := 0 }

/-- The five records of the series test: timestamps 1000 to 1040, values 10 to 14. -/
def sampleBlock : Block Int :=
  [sampleRecord 1000 10, sampleRecord 1010 11, sampleRecord 1020 12,
   sampleRecord 1030 13, sampleRecord 1040 14]

/-- A store over the reference directory holding the given files and block. -/
def sampleStore (disk : List (DataFile Int)) (block : Block Int)
    (maxFileSize maxDiskSize : Int) : DiskStore RegistryState (List (DataFile Int)) Int :=
  { block := block, maxFileSize := maxFileSize, maxDiskSize := maxDiskSize,
    meta := sampleMeta, disk := disk }

/-- A directory with the single file `f0`, holding one record. -/
def oneFile : List (DataFile Int) := [DataFile.mk "f0" [sampleRecord 1 1]]

/-- A directory with the files `f0` and `f1`, holding one record each. -/
def twoFiles : List (DataFile Int) :=
  [DataFile.mk "f0" [sampleRecord 1 1], DataFile.mk "f1" [sampleRecord 2 2]]

/-- The message that adds the record of series 1 at timestamp 7. -/
def sampleMessage : addMessage Int :=
  { name := "temperature", measurement := sampleRecord 7 7, rawValue := [] }

/-- A store with an empty registry, an empty directory and an empty block. -/
def freshStore : DiskStore RegistryState (List (DataFile Int)) Int :=
  { block := [], maxFileSize := 1000, maxDiskSize := 10000,
    meta := { entries := [], values := [] }, disk := [] }

/-- A store whose only file `f0` ends at timestamp 20 while the block holds one
more record with that same timestamp. -/
def sameInstantStore : DiskStore RegistryState (List (DataFile Int)) Int :=
  sampleStore [DataFile.mk "f0" [sampleRecord 10 1, sampleRecord 20 2]] [sampleRecord 20 3]
    1000 10000

/-! ## Reading a result name by name -/

section Scan

variable {M D V : Type}

/-- What one record adds to the sequence stored under the name `n`: the loop
body of `appendPassingMeasurements` run on the empty result and read at `n`. -/
def contribution (reg : Registry M V) (s : DiskStore M D V) (start end_ : Int)
    (filter : FilterCollection V) (n : String) (r : SerializedMeasurement V) :
    List (Option (Measurement V)) :=
  appendPassingMeasurement reg s start end_ filter readResult.empty r n

/-- What a block adds to the sequence stored under the name `n`. -/
def scanBlock (reg : Registry M V) (s : DiskStore M D V) (start end_ : Int)
    (filter : FilterCollection V) (n : String) (b : Block V) :
    List (Option (Measurement V)) :=
  b.flatMap (contribution reg s start end_ filter n)

/-- The test at the end of `handleRead` that decides whether the buffered block
is scanned, on the list of selected files. -/
def scansBuffer (files : List FileInfo) (end_ : Int) : Bool :=
  match files.getLast? with
  | none => true
  | some lastFile => decide (end_ > lastFile.latestTs)

/-- The range of timestamps in a file's descriptor covers all its records. -/
def Covered (f : DataFile V) : Prop :=
  ∀ r ∈ f.records, (DataFile.info f).oldestTs ≤ r.Ts ∧ r.Ts ≤ (DataFile.info f).latestTs

end Scan

/-! ## Theorems -/

section Theorems

variable {M D V : Type}

/-- One pass of the loop body appends the record's contribution to what is stored
under each name. -/
theorem appendPassingMeasurement_apply (reg : Registry M V) (s : DiskStore M D V)
    (start end_ : Int) (filter : FilterCollection V) (result : readResult V)
    (r : SerializedMeasurement V) (n : String) :
    appendPassingMeasurement reg s start end_ filter result r n
      = result n ++ contribution reg s start end_ filter n r := by
  unfold contribution appendPassingMeasurement readResult.append readResult.empty
  simp only []
  by_cases hn : n = reg.GetNameForID s.meta r.ID <;> split_ifs <;> simp [hn]

/-- The scan of a block appends, under each name, the contributions of its records
in block order. -/
theorem appendPassingMeasurements_apply (reg : Registry M V) (s : DiskStore M D V)
    (block : Block V) (start end_ : Int) (filter : FilterCollection V)
    (result : readResult V) (n : String) :
    appendPassingMeasurements reg s block start end_ filter result n
      = result n ++ block.flatMap (contribution reg s start end_ filter n) := by
  unfold appendPassingMeasurements
  induction block generalizing result with
  | nil => simp
  | cons r rest ih =>
    simp only [List.foldl_cons, List.flatMap_cons]
    rw [ih, appendPassingMeasurement_apply, List.append_assoc]

/-- The contribution of a record of a named numerical series under a filter that
lets everything pass. -/
theorem contribution_numerical (reg : Registry M V) (s : DiskStore M D V)
    (start end_ : Int) (filter : FilterCollection V) (n : String)
    (r : SerializedMeasurement V)
    (hname : reg.GetNameForID s.meta r.ID ≠ "")
    (htype : reg.GetTypeForID s.meta r.ID = MeasurementType.MeasurementNumerical)
    (hpass : ∀ name m, filter name m = true) :
    contribution reg s start end_ filter n r
      = if reg.GetNameForID s.meta r.ID = n ∧ start ≤ r.Ts ∧ r.Ts ≤ end_
        then [some (Measurement.Numerical r.Ts r.Value)] else [] := by
  unfold contribution appendPassingMeasurement readResult.append readResult.empty
  simp only [htype, hpass, if_neg hname]
  by_cases hrange : r.Ts < start ∨ r.Ts > end_
  · have hout : ¬ (reg.GetNameForID s.meta r.ID = n ∧ start ≤ r.Ts ∧ r.Ts ≤ end_) := by
      rintro ⟨_, h1, h2⟩
      rcases hrange with h | h <;> omega
    rw [if_pos hrange, if_neg hout]
  · have hin : start ≤ r.Ts ∧ r.Ts ≤ end_ := by
      constructor
      · by_contra h
        exact hrange (Or.inl (by omega))
      · by_contra h
        exact hrange (Or.inr (by omega))
    rw [if_neg hrange]
    by_cases hn : n = reg.GetNameForID s.meta r.ID
    · simp [hn, hin]
    · have hn2 : ¬ reg.GetNameForID s.meta r.ID = n := fun h => hn h.symm
      simp [hn, hn2]

/-- Claim C1 (range containment and order). For a block whose records all
resolve to a named numerical series and a filter that lets everything pass,
what `appendPassingMeasurements` appends under a name is exactly that series'
records with `start ≤ Ts ≤ end_`, each as a numerical measurement carrying the
record's timestamp and value, in the order of the block. Records outside the
range are therefore never included. -/
theorem appendPassingMeasurements_numerical_range (reg : Registry M V)
    (s : DiskStore M D V) (block : Block V) (start end_ : Int)
    (filter : FilterCollection V) (result : readResult V) (name : String)
    (hnum : ∀ r ∈ block, reg.GetNameForID s.meta r.ID ≠ "" ∧
      reg.GetTypeForID s.meta r.ID = MeasurementType.MeasurementNumerical)
    (hpass : ∀ n m, filter n m = true) :
    appendPassingMeasurements reg s block start end_ filter result name
      = result name ++
        (block.filter (fun r => decide (reg.GetNameForID s.meta r.ID = name)
            && decide (start ≤ r.Ts) && decide (r.Ts ≤ end_))).map
          (fun r => some (Measurement.Numerical r.Ts r.Value)) := by
  rw [appendPassingMeasurements_apply]
  congr 1
  induction block with
  | nil => rfl
  | cons r rest ih =>
    have hr := hnum r (List.mem_cons_self r rest)
    have ih2 := ih (fun x hx => hnum x (List.mem_cons_of_mem r hx))
    rw [List.flatMap_cons, ih2, contribution_numerical reg s start end_ filter name r hr.1 hr.2 hpass]
    by_cases h : reg.GetNameForID s.meta r.ID = name ∧ start ≤ r.Ts ∧ r.Ts ≤ end_
    · rw [if_pos h, List.filter_cons_of_pos (by simp [h.1, h.2.1, h.2.2])]
      rfl
    · rw [if_neg h, List.filter_cons_of_neg]
      · rfl
      · simp only [Bool.and_eq_true, decide_eq_true_eq, and_assoc]
        exact h

/-- Claim C9 (unknown IDs are skipped). For every block, range, filter and
starting result, `appendPassingMeasurements` gives the same result on the block
as on the block without the records whose ID resolves to the empty name or to
the unknown kind: such a record adds nothing and does not stop the scan. -/
theorem appendPassingMeasurements_skips_unknown (reg : Registry M V)
    (s : DiskStore M D V) (block : Block V) (start end_ : Int)
    (filter : FilterCollection V) (result : readResult V) :
    appendPassingMeasurements reg s block start end_ filter result
      = appendPassingMeasurements reg s
          (block.filter (fun r => !(decide (reg.GetNameForID s.meta r.ID = "")
            || decide (reg.GetTypeForID s.meta r.ID = MeasurementType.unknown))))
          start end_ filter result := by
  unfold appendPassingMeasurements
  induction block generalizing result with
  | nil => rfl
  | cons r rest ih =>
    by_cases h : reg.GetNameForID s.meta r.ID = "" ∨
        reg.GetTypeForID s.meta r.ID = MeasurementType.unknown
    · rw [List.filter_cons_of_neg (by simp only [Bool.not_eq_true_eq_eq_false, Bool.not_eq_false, Bool.or_eq_true, decide_eq_true_eq, Bool.not_eq_eq_eq_not, Bool.not_true, Bool.not_false]; simpa using h), List.foldl_cons, ← ih]
      congr 1
      unfold appendPassingMeasurement
      rcases h with h | h
      · simp [h]
      · simp only [h]
        split_ifs <;> rfl
    · rw [List.filter_cons_of_pos (by simpa using h), List.foldl_cons, List.foldl_cons, ih]

/-- A block has size zero exactly when it holds no record. -/
theorem Block.Size_eq_zero_iff (b : Block V) : Block.Size b = 0 ↔ b = [] := by
  unfold Block.Size serializedMeasurementSize
  constructor
  · intro h
    have h2 : (b.length : Int) = 0 := by omega
    exact List.length_eq_zero.mp (by exact_mod_cast h2)
  · intro h
    simp [h]

/-- The size of a block is not negative. -/
theorem Block.Size_nonneg (b : Block V) : 0 ≤ Block.Size b := by
  unfold Block.Size serializedMeasurementSize
  positivity

/-- The size of a concatenation is the sum of the sizes. -/
theorem Block.Size_append (a b : Block V) : Block.Size (a ++ b) = Block.Size a + Block.Size b := by
  unfold Block.Size
  rw [List.length_append]
  push_cast
  ring

/-- The block after a commit that obtained the file list is empty, whatever the
write, append and remove operations did. -/
theorem commit_block_of_listed (fm : FileManager D V) (s : DiskStore M D V)
    (fileList : List FileInfo) (hlist : fm.GetSortedFileList s.disk = .ok fileList) :
    (commit fm s).block = [] := by
  unfold commit
  by_cases h0 : Block.Size s.block = 0
  · rw [if_pos h0]
    exact (Block.Size_eq_zero_iff s.block).mp h0
  · rw [if_neg h0]
    simp only [hlist]
    cases fileList with
    | nil => rfl
    | cons oldestFile rest =>
      simp only []
      split_ifs <;> rfl

/-- The state after a commit that could not obtain the file list is the state
before it. -/
theorem commit_of_list_error (fm : FileManager D V) (s : DiskStore M D V)
    (e : String) (hlist : fm.GetSortedFileList s.disk = .error e) :
    commit fm s = s := by
  unfold commit
  split_ifs
  · rfl
  · simp only [hlist]

/-- The total size of a concatenation of file lists is the sum of the totals. -/
theorem TotalSize_append (a b : List FileInfo) : TotalSize (a ++ b) = TotalSize a + TotalSize b := by
  unfold TotalSize
  simp

/-- The last descriptor of a listing is the descriptor of the last file. -/
theorem map_info_getLast (d : List (DataFile V)) (h : d.map DataFile.info ≠ []) (h2 : d ≠ []) :
    (d.map DataFile.info).getLast h = DataFile.info (d.getLast h2) := by
  induction d with
  | nil => exact absurd rfl h2
  | cons f rest ih =>
    cases rest with
    | nil => rfl
    | cons g rest2 =>
      simp only [List.map_cons, List.getLast_cons_cons]
      exact ih (by simp) (by simp)

/-- The commit over the reference directory when the directory is empty. -/
theorem commit_spec_first (newName : String) (s : DiskStore M (List (DataFile V)) V)
    (hne : s.block ≠ []) (hdisk : s.disk = []) :
    commit (specFileManager newName) s
      = { s with disk := [DataFile.mk newName s.block], block := [] } := by
  unfold commit
  rw [if_neg (fun h => hne ((Block.Size_eq_zero_iff s.block).mp h))]
  simp [specFileManager, hdisk]

/-- The commit over the reference directory when the newest file is below the
maximal file size. -/
theorem commit_spec_append (newName : String) (s : DiskStore M (List (DataFile V)) V)
    (hne : s.block ≠ []) (older : List (DataFile V)) (newest : DataFile V)
    (hdisk : s.disk = older ++ [newest])
    (hsmall : (DataFile.info newest).size < s.maxFileSize) :
    commit (specFileManager newName) s
      = { s with
          disk := s.disk.map (fun f =>
            if f.name = newest.name then { f with records := f.records ++ s.block } else f)
          block := [] } := by
  unfold commit
  rw [if_neg (fun h => hne ((Block.Size_eq_zero_iff s.block).mp h))]
  have hd : s.disk ≠ [] := by simp [hdisk]
  have hlast : s.disk.getLast hd = newest := by simp [hdisk]
  cases hs : s.disk with
  | nil => exact absurd hs hd
  | cons f rest =>
    have hl : DataFile.info ((f :: rest).getLast (List.cons_ne_nil f rest)) = DataFile.info newest := by
      have := hlast
      simp only [hs] at this
      rw [this]
    simp only [specFileManager, List.map_cons]
    have hl2 := map_info_getLast (f :: rest) (by simp) (List.cons_ne_nil f rest)
    simp only [List.map_cons] at hl2
    rw [hl2, hl, if_pos hsmall]
    rfl

/-- The commit over the reference directory when the newest file has reached the
maximal file size. -/
theorem commit_spec_rotate (newName : String) (s : DiskStore M (List (DataFile V)) V)
    (hne : s.block ≠ []) (oldest : DataFile V) (rest : List (DataFile V))
    (newest : DataFile V) (hdisk : s.disk = oldest :: rest)
    (hlast : s.disk.getLast? = some newest)
    (hfull : s.maxFileSize ≤ (DataFile.info newest).size) :
    commit (specFileManager newName) s
      = { s with
          disk :=
            if TotalSize (s.disk.map DataFile.info) > s.maxDiskSize then
              (s.disk ++ [DataFile.mk newName s.block]).filter
                (fun f => decide (f.name ≠ oldest.name))
            else s.disk ++ [DataFile.mk newName s.block]
          block := [] } := by
  unfold commit
  rw [if_neg (fun h => hne ((Block.Size_eq_zero_iff s.block).mp h))]
  simp only [specFileManager, hdisk, List.map_cons]
  have hl2 := map_info_getLast (oldest :: rest) (by simp) (List.cons_ne_nil oldest rest)
  simp only [List.map_cons] at hl2
  have hl3 : (oldest :: rest).getLast (List.cons_ne_nil oldest rest) = newest := by
    rw [hdisk, List.getLast?_eq_getLast _ (List.cons_ne_nil oldest rest)] at hlast
    exact Option.some.inj hlast
  rw [hl2, hl3, if_neg (not_lt.mpr hfull)]
  split_ifs <;> rfl

/-- Appending to the file named like the newest one changes that file alone when
file names are distinct. -/
theorem append_to_newest (older : List (DataFile V)) (newest : DataFile V) (b : Block V)
    (hnames : ((older ++ [newest]).map DataFile.name).Nodup) :
    (older ++ [newest]).map (fun f =>
        if f.name = newest.name then { f with records := f.records ++ b } else f)
      = older ++ [DataFile.mk newest.name (newest.records ++ b)] := by
  rw [List.map_append]
  congr 1
  · rw [List.map_append, List.nodup_append] at hnames
    have hdis := hnames.2.2
    conv_rhs => rw [← List.map_id older]
    apply List.map_congr_left
    intro f hf
    have hne : f.name ≠ newest.name := by
      intro h
      exact hdis (List.mem_map_of_mem DataFile.name hf) (by simp [h])
    simp [hne]
  · simp

/-- Removing the file named like the oldest one drops that file alone when file
names are distinct and the new file's name is fresh. -/
theorem remove_oldest (oldest : DataFile V) (rest : List (DataFile V)) (new : DataFile V)
    (hnames : ((oldest :: rest).map DataFile.name).Nodup)
    (hfresh : new.name ∉ (oldest :: rest).map DataFile.name) :
    (oldest :: rest ++ [new]).filter (fun f => decide (f.name ≠ oldest.name)) = rest ++ [new] := by
  rw [List.map_cons, List.nodup_cons] at hnames
  have hnew : new.name ≠ oldest.name := by
    intro h
    exact hfresh (by simp [h])
  rw [List.cons_append, List.filter_cons_of_neg (by simp), List.filter_append]
  congr 1
  · rw [List.filter_eq_self]
    intro f hf
    have : f.name ≠ oldest.name := by
      intro h
      exact hnames.1 (h ▸ List.mem_map_of_mem DataFile.name hf)
    simpa using this
  · simp [hnew]

/-- The directory after a commit that appends to the newest file. -/
theorem commit_spec_append_disk (newName : String)
    (s : DiskStore M (List (DataFile V)) V) (hne : s.block ≠ [])
    (hnames : (s.disk.map DataFile.name).Nodup)
    (older : List (DataFile V)) (newest : DataFile V)
    (hdisk : s.disk = older ++ [newest])
    (hsmall : (DataFile.info newest).size < s.maxFileSize) :
    (commit (specFileManager newName) s).disk
      = older ++ [DataFile.mk newest.name (newest.records ++ s.block)] := by
  rw [commit_spec_append newName s hne older newest hdisk hsmall]
  simp only [hdisk]
  exact append_to_newest older newest s.block (hdisk ▸ hnames)

/-- Claim C3 (append or rotate). A commit of a non-empty block over the
reference directory (distinct file names, a fresh name for a new file): if a
newest file exists and its size is below `maxFileSize`, the block's records are
appended in order to that file and the directory has the same files otherwise;
if there is no file, or the newest file's size is at least `maxFileSize`, the
directory afterwards is a sublist of the old files, each with its old contents,
followed by a new file whose entire contents are the block. -/
theorem commit_append_or_rotate (newName : String) (s : DiskStore M (List (DataFile V)) V)
    (hne : s.block ≠ [])
    (hnames : (s.disk.map DataFile.name).Nodup)
    (hfresh : newName ∉ s.disk.map DataFile.name) :
    (∀ older newest, s.disk = older ++ [newest] →
        (DataFile.info newest).size < s.maxFileSize →
        (commit (specFileManager newName) s).disk
          = older ++ [DataFile.mk newest.name (newest.records ++ s.block)]) ∧
    ((s.disk = [] ∨ ∃ older newest, s.disk = older ++ [newest] ∧
          s.maxFileSize ≤ (DataFile.info newest).size) →
        ∃ kept, kept.Sublist s.disk ∧
          (commit (specFileManager newName) s).disk = kept ++ [DataFile.mk newName s.block]) := by
  constructor
  · intro older newest hdisk hsmall
    rw [commit_spec_append newName s hne older newest hdisk hsmall]
    simp only [hdisk]
    exact append_to_newest older newest s.block (hdisk ▸ hnames)
  · rintro (hempty | ⟨older, newest, hdisk, hfull⟩)
    · refine ⟨[], List.nil_sublist _, ?_⟩
      rw [commit_spec_first newName s hne hempty]
      rfl
    · cases hd : s.disk with
      | nil => simp [hdisk] at hd
      | cons oldest rest =>
        have hlast : s.disk.getLast? = some newest := by simp [hdisk]
        rw [commit_spec_rotate newName s hne oldest rest newest hd hlast hfull]
        simp only []
        split_ifs
        · refine ⟨rest, ?_, ?_⟩
          · exact List.sublist_cons_self oldest rest
          · rw [hd]
            exact remove_oldest oldest rest (DataFile.mk newName s.block) (hd ▸ hnames)
              (hd ▸ hfresh)
        · exact ⟨oldest :: rest, List.Sublist.refl _, by rw [hd]⟩

/-- Claim C4 as amended (rotation threshold). A commit of a non-empty block when
the newest file's size is at least `maxFileSize` creates a new file holding the
block and appends to no file; a file left after the commit under the newest
file's name is that file unchanged; and the newest file is left unless it was
the only file and the listed total exceeded `maxDiskSize`. -/
theorem commit_rotates_when_newest_full (newName : String)
    (s : DiskStore M (List (DataFile V)) V)
    (hne : s.block ≠ [])
    (hnames : (s.disk.map DataFile.name).Nodup)
    (hfresh : newName ∉ s.disk.map DataFile.name)
    (older : List (DataFile V)) (newest : DataFile V)
    (hdisk : s.disk = older ++ [newest])
    (hfull : s.maxFileSize ≤ (DataFile.info newest).size) :
    (∃ kept, kept.Sublist s.disk ∧
      (commit (specFileManager newName) s).disk = kept ++ [DataFile.mk newName s.block]) ∧
    (∀ f ∈ (commit (specFileManager newName) s).disk, f.name = newest.name → f = newest) ∧
    ((older ≠ [] ∨ TotalSize (s.disk.map DataFile.info) ≤ s.maxDiskSize) →
      newest ∈ (commit (specFileManager newName) s).disk) := by
  have hnewest : newest ∈ s.disk := by simp [hdisk]
  have hnewName : newName ≠ newest.name := by
    intro h
    exact hfresh (h ▸ List.mem_map_of_mem DataFile.name hnewest)
  have huniq : ∀ f ∈ s.disk, f.name = newest.name → f = newest := by
    intro f hf hname
    rw [hdisk] at hf hnames
    rw [List.map_append, List.nodup_append] at hnames
    rcases List.mem_append.mp hf with h | h
    · exact (hnames.2.2 (List.mem_map_of_mem DataFile.name h) (by simp [hname])).elim
    · simpa using h
  cases hd : s.disk with
  | nil => simp [hdisk] at hd
  | cons oldest rest =>
    have hlast : s.disk.getLast? = some newest := by simp [hdisk]
    rw [commit_spec_rotate newName s hne oldest rest newest hd hlast hfull]
    simp only []
    by_cases hbig : TotalSize (s.disk.map DataFile.info) > s.maxDiskSize
    · rw [if_pos hbig, hd,
        remove_oldest oldest rest (DataFile.mk newName s.block) (hd ▸ hnames) (hd ▸ hfresh)]
      refine ⟨⟨rest, List.sublist_cons_self oldest rest, rfl⟩, ?_, ?_⟩
      · intro f hf hname
        rcases List.mem_append.mp hf with h | h
        · exact huniq f (hd ▸ List.mem_cons_of_mem oldest h) hname
        · simp only [List.mem_singleton] at h
          rw [h] at hname
          exact absurd hname hnewName
      · rintro (hold | hsmall)
        · cases older with
          | nil => exact absurd rfl hold
          | cons o os =>
            rw [hdisk, List.cons_append] at hd
            have hrest : rest = os ++ [newest] := (List.cons.inj hd).2.symm
            simp [hrest]
        · rw [← hd] at hsmall
          omega
    · rw [if_neg hbig]
      refine ⟨⟨oldest :: rest, List.Sublist.refl _, by rw [hd]⟩, ?_, ?_⟩
      · intro f hf hname
        rw [hd] at hf
        rcases List.mem_append.mp hf with h | h
        · exact huniq f (hd ▸ h) hname
        · simp only [List.mem_singleton] at h
          rw [h] at hname
          exact absurd hname hnewName
      · intro _
        rw [hd]
        exact List.mem_append_left _ (hd ▸ hnewest)

/-- Claim C2 as amended (eviction). A commit of a non-empty block over the
reference directory: written as the first file, the directory is that file
alone; appended to the newest file, the directory keeps exactly its file names
(no file is removed); written as a new file beside existing ones, if the total
size of the files listed before the write exceeds `maxDiskSize` then exactly the
oldest file is removed and the total afterwards is the total after the write
minus that file's size, and if the total after the write does not exceed
`maxDiskSize` then no file is removed. -/
theorem commit_evicts_on_rotation (newName : String)
    (s : DiskStore M (List (DataFile V)) V)
    (hne : s.block ≠ [])
    (hnames : (s.disk.map DataFile.name).Nodup)
    (hfresh : newName ∉ s.disk.map DataFile.name) :
    (s.disk = [] →
      (commit (specFileManager newName) s).disk = [DataFile.mk newName s.block]) ∧
    (∀ older newest, s.disk = older ++ [newest] →
      (DataFile.info newest).size < s.maxFileSize →
      ((commit (specFileManager newName) s).disk).map DataFile.name
        = s.disk.map DataFile.name) ∧
    (∀ oldest rest newest, s.disk = oldest :: rest → s.disk.getLast? = some newest →
      s.maxFileSize ≤ (DataFile.info newest).size →
      (TotalSize (s.disk.map DataFile.info) > s.maxDiskSize →
        (commit (specFileManager newName) s).disk = rest ++ [DataFile.mk newName s.block] ∧
        TotalSize ((commit (specFileManager newName) s).disk.map DataFile.info)
          = TotalSize ((s.disk ++ [DataFile.mk newName s.block]).map DataFile.info)
            - (DataFile.info oldest).size) ∧
      (TotalSize ((s.disk ++ [DataFile.mk newName s.block]).map DataFile.info) ≤ s.maxDiskSize →
        (commit (specFileManager newName) s).disk
          = s.disk ++ [DataFile.mk newName s.block])) := by
  refine ⟨?_, ?_, ?_⟩
  · intro hempty
    rw [commit_spec_first newName s hne hempty]
  · intro older newest hdisk hsmall
    rw [commit_spec_append newName s hne older newest hdisk hsmall]
    simp only [hdisk]
    rw [append_to_newest older newest s.block (hdisk ▸ hnames)]
    simp
  · intro oldest rest newest hd hlast hfull
    rw [commit_spec_rotate newName s hne oldest rest newest hd hlast hfull]
    simp only []
    constructor
    · intro hbig
      rw [if_pos hbig, hd,
        remove_oldest oldest rest (DataFile.mk newName s.block) (hd ▸ hnames) (hd ▸ hfresh)]
      refine ⟨rfl, ?_⟩
      simp only [List.cons_append, List.map_cons, List.map_append, TotalSize, List.sum_cons,
        List.sum_append]
      ring
    · intro hfits
      have hb := Block.Size_nonneg s.block
      have hle : TotalSize (s.disk.map DataFile.info) ≤ s.maxDiskSize := by
        rw [List.map_append, TotalSize_append] at hfits
        have hnew : TotalSize ([DataFile.mk newName s.block].map DataFile.info)
            = Block.Size s.block := by
          simp [TotalSize, DataFile.info]
        rw [hnew] at hfits
        omega
      rw [if_neg (not_lt.mpr hle)]

/-- Witness for claim C3: one file below the maximal file size, so the block is
appended to it. -/
theorem commit_append_or_rotate_witness :
    ((sampleStore oneFile [sampleRecord 2 2] 100 1000).block ≠ [] ∧
      ((sampleStore oneFile [sampleRecord 2 2] 100 1000).disk.map DataFile.name).Nodup ∧
      "f1" ∉ (sampleStore oneFile [sampleRecord 2 2] 100 1000).disk.map DataFile.name) ∧
    (commit (specFileManager "f1") (sampleStore oneFile [sampleRecord 2 2] 100 1000)).disk
      = [DataFile.mk "f0" [sampleRecord 1 1, sampleRecord 2 2]] :=
  ⟨⟨by decide, by decide, by decide⟩,
    (commit_append_or_rotate "f1" (sampleStore oneFile [sampleRecord 2 2] 100 1000)
      (by decide) (by decide) (by decide)).1 [] (DataFile.mk "f0" [sampleRecord 1 1]) rfl
      (by decide)⟩

/-- Claim C4 fails as stated: the newest file holds 32 bytes and the block 32
more, which exceeds a maximal file size of 40, yet the commit appends the block
to the newest file and creates no new file. -/
theorem commit_appends_past_file_limit :
    (DataFile.info (DataFile.mk "f0" [sampleRecord 1 1])).size
        + Block.Size [sampleRecord 2 2] > 40 ∧
    (commit (specFileManager "f1") (sampleStore oneFile [sampleRecord 2 2] 40 1000)).disk
      = [DataFile.mk "f0" [sampleRecord 1 1, sampleRecord 2 2]] := by
  decide

/-- Witness for claim C4 as amended: the only file has reached the maximal file
size and the budget is not exceeded, so that file is left in place. -/
theorem commit_rotates_when_newest_full_witness :
    ((sampleStore oneFile [sampleRecord 2 2] 32 1000).block ≠ [] ∧
      ((sampleStore oneFile [sampleRecord 2 2] 32 1000).disk.map DataFile.name).Nodup ∧
      "f1" ∉ (sampleStore oneFile [sampleRecord 2 2] 32 1000).disk.map DataFile.name ∧
      (sampleStore oneFile [sampleRecord 2 2] 32 1000).disk
        = [] ++ [DataFile.mk "f0" [sampleRecord 1 1]] ∧
      (sampleStore oneFile [sampleRecord 2 2] 32 1000).maxFileSize
        ≤ (DataFile.info (DataFile.mk "f0" [sampleRecord 1 1])).size) ∧
    DataFile.mk "f0" [sampleRecord 1 1]
      ∈ (commit (specFileManager "f1") (sampleStore oneFile [sampleRecord 2 2] 32 1000)).disk :=
  ⟨⟨by decide, by decide, by decide, rfl, by decide⟩,
    (commit_rotates_when_newest_full "f1" (sampleStore oneFile [sampleRecord 2 2] 32 1000)
      (by decide) (by decide) (by decide) [] (DataFile.mk "f0" [sampleRecord 1 1]) rfl
      (by decide)).2.2 (Or.inr (by decide))⟩

/-- Claim C2 fails as stated: with a disk budget of 40 bytes, a commit that
appends leaves 64 bytes in the single file `f0` and removes nothing, and a
commit that writes a new file beside a listed total of 32 bytes leaves 64 bytes
in two files and removes nothing. -/
theorem commit_over_budget_without_eviction :
    (TotalSize ((commit (specFileManager "f1")
        (sampleStore oneFile [sampleRecord 2 2] 100 40)).disk.map DataFile.info) > 40 ∧
      (commit (specFileManager "f1") (sampleStore oneFile [sampleRecord 2 2] 100 40)).disk
        = [DataFile.mk "f0" [sampleRecord 1 1, sampleRecord 2 2]]) ∧
    (TotalSize ((commit (specFileManager "f1")
        (sampleStore oneFile [sampleRecord 2 2] 32 40)).disk.map DataFile.info) > 40 ∧
      (commit (specFileManager "f1") (sampleStore oneFile [sampleRecord 2 2] 32 40)).disk
        = [DataFile.mk "f0" [sampleRecord 1 1], DataFile.mk "f1" [sampleRecord 2 2]]) := by
  decide

/-- Witness for claim C2 as amended: two full files of 32 bytes under a budget of
40; the commit writes `f2` and removes `f0`, leaving 96 - 32 bytes. -/
theorem commit_evicts_on_rotation_witness :
    ((sampleStore twoFiles [sampleRecord 3 3] 32 40).block ≠ [] ∧
      ((sampleStore twoFiles [sampleRecord 3 3] 32 40).disk.map DataFile.name).Nodup ∧
      "f2" ∉ (sampleStore twoFiles [sampleRecord 3 3] 32 40).disk.map DataFile.name) ∧
    (commit (specFileManager "f2") (sampleStore twoFiles [sampleRecord 3 3] 32 40)).disk
      = [DataFile.mk "f1" [sampleRecord 2 2], DataFile.mk "f2" [sampleRecord 3 3]] ∧
    TotalSize ((commit (specFileManager "f2")
        (sampleStore twoFiles [sampleRecord 3 3] 32 40)).disk.map DataFile.info) = 96 - 32 :=
  ⟨⟨by decide, by decide, by decide⟩,
    ((commit_evicts_on_rotation "f2" (sampleStore twoFiles [sampleRecord 3 3] 32 40)
      (by decide) (by decide) (by decide)).2.2 (DataFile.mk "f0" [sampleRecord 1 1])
      [DataFile.mk "f1" [sampleRecord 2 2]] (DataFile.mk "f1" [sampleRecord 2 2]) rfl rfl
      (by decide)).1 (by decide)⟩

/-- Claim C6, the code at the failing input: when writing a new file fails, and
likewise when appending to the newest file fails, the directory is left as it
was and the block is empty after the commit, so the buffered record is lost. -/
theorem commit_discards_block_when_write_fails :
    (sampleStore oneFile [sampleRecord 2 2] 32 1000).block = [sampleRecord 2 2] ∧
    (commit (writeFailingFileManager "f1")
      (sampleStore oneFile [sampleRecord 2 2] 32 1000)).block = [] ∧
    (commit (writeFailingFileManager "f1")
      (sampleStore oneFile [sampleRecord 2 2] 32 1000)).disk = oneFile ∧
    (commit (writeFailingFileManager "f1")
      (sampleStore oneFile [sampleRecord 2 2] 100 1000)).block = [] ∧
    (commit (writeFailingFileManager "f1")
      (sampleStore oneFile [sampleRecord 2 2] 100 1000)).disk = oneFile := by
  decide

/-- Claim C7 as amended (buffer bound). In the state reached from any store by
any sequence of events, under any behaviour of the file operations during them,
an add event handled while the file list can be obtained leaves a block of at
most `maxBuffer` bytes. -/
theorem handleAdd_bounds_block (reg : Registry M V) (s0 : DiskStore M D V)
    (events : List (FileManager D V × Event V)) (fm : FileManager D V)
    (message : addMessage V) (fileList : List FileInfo)
    (hlist : fm.GetSortedFileList (Listen reg s0 events).1.disk = .ok fileList) :
    Block.Size (handleAdd fm (Listen reg s0 events).1 message).block ≤ maxBuffer := by
  unfold handleAdd
  simp only []
  split_ifs with hbig
  · have hempty := commit_block_of_listed fm
      { (Listen reg s0 events).1 with
        block := (Listen reg s0 events).1.block ++ [message.measurement] } fileList hlist
    rw [hempty]
    simp [Block.Size, maxBuffer]
  · exact not_lt.mp hbig

/-- Witness for claim C7 as amended: a block of 384 records, a read handled while
the directory cannot be listed, then an add handled with a working listing. The
add brings the block to 385 records, over the threshold, and triggers the
commit. -/
theorem handleAdd_bounds_block_witness :
    (specFileManager "f1").GetSortedFileList
        (Listen specRegistry
          (sampleStore oneFile (List.replicate 384 (sampleRecord 7 7)) 100 1000)
          [(listFailingFileManager "f1", Event.read 0 10 passAll)]).1.disk
      = .ok [DataFile.info (DataFile.mk "f0" [sampleRecord 1 1])] ∧
    Block.Size (handleAdd (specFileManager "f1")
        (Listen specRegistry
          (sampleStore oneFile (List.replicate 384 (sampleRecord 7 7)) 100 1000)
          [(listFailingFileManager "f1", Event.read 0 10 passAll)]).1 sampleMessage).block
      ≤ maxBuffer :=
  ⟨rfl, handleAdd_bounds_block specRegistry
    (sampleStore oneFile (List.replicate 384 (sampleRecord 7 7)) 100 1000)
    [(listFailingFileManager "f1", Event.read 0 10 passAll)] (specFileManager "f1")
    sampleMessage [DataFile.info (DataFile.mk "f0" [sampleRecord 1 1])] rfl⟩

/-- While the directory cannot be listed, an add event only lengthens the
block. -/
theorem handleAdd_of_list_error (fm : FileManager D V) (s : DiskStore M D V)
    (message : addMessage V) (e : String)
    (hlist : fm.GetSortedFileList s.disk = .error e) :
    handleAdd fm s message = { s with block := s.block ++ [message.measurement] } := by
  unfold handleAdd
  simp only []
  split_ifs
  · exact commit_of_list_error fm _ e hlist
  · rfl

/-- While the directory cannot be listed, a run of add events leaves all their
records in the block. -/
theorem Listen_adds_of_list_error (reg : Registry M V) (fm : FileManager D V)
    (message : addMessage V) (e : String)
    (hlist : ∀ d, fm.GetSortedFileList d = .error e) (n : Nat) (s : DiskStore M D V) :
    (Listen reg s (List.replicate n (fm, Event.add message))).1
      = { s with block := s.block ++ List.replicate n message.measurement } := by
  induction n generalizing s with
  | zero => simp [Listen]
  | succ k ih =>
    rw [List.replicate_succ, Listen, ih, handleAdd_of_list_error fm s message e (hlist s.disk)]
    simp [List.replicate_succ]

/-- Claim C7 fails as stated: after 385 add events handled while the directory
cannot be listed, the block holds 385 records, 12320 bytes, more than
`maxBuffer`. -/
theorem block_exceeds_maxBuffer_when_listing_fails :
    ¬ Block.Size (Listen specRegistry (sampleStore [] [] 100 1000)
        (List.replicate 385 (listFailingFileManager "f1", Event.add sampleMessage))).1.block
      ≤ maxBuffer := by
  rw [Listen_adds_of_list_error specRegistry (listFailingFileManager "f1") sampleMessage
    "cannot list the data directory" (fun _ => rfl)]
  show ¬ Block.Size ([] ++ List.replicate 385 sampleMessage.measurement) ≤ maxBuffer
  rw [Block.Size, List.length_append, List.length_replicate]
  decide

/-- Claim C8 (kind mismatch is a dropped write). When `GetOrCreateID` fails for
the name and the kind of the measurement, `Add` puts no message on the channel,
so after the call the block and the data directory are what they were. -/
theorem Add_drops_on_registry_error [Zero V] (fm : FileManager D V) (reg : Registry M V)
    (s : DiskStore M D V) (name : String) (measurement : Measurement V)
    (e : String) (meta1 : M)
    (hfail : reg.GetOrCreateID s.meta name measurement.kind = (.error e, meta1)) :
    (Add reg s name measurement).2 = none ∧
    (AddThenHandle fm reg s name measurement).block = s.block ∧
    (AddThenHandle fm reg s name measurement).disk = s.disk := by
  have hadd : Add reg s name measurement = (meta1, none) := by
    unfold Add
    rw [hfail]
  refine ⟨by rw [hadd], ?_, ?_⟩
  · unfold AddThenHandle
    rw [hadd]
  · unfold AddThenHandle
    rw [hadd]

/-- Witness for claim C8: `temperature` is bound to the numerical kind, so a
categorical measurement under that name is refused by the registry and
dropped. -/
theorem Add_drops_on_registry_error_witness :
    specRegistry.GetOrCreateID (sampleStore oneFile [sampleRecord 2 2] 100 1000).meta
        "temperature" (Measurement.Categorical 5 "on" : Measurement Int).kind
      = (.error "kind mismatch", sampleMeta) ∧
    (Add specRegistry (sampleStore oneFile [sampleRecord 2 2] 100 1000) "temperature"
      (Measurement.Categorical 5 "on")).2 = none ∧
    (AddThenHandle (specFileManager "f1") specRegistry
      (sampleStore oneFile [sampleRecord 2 2] 100 1000) "temperature"
      (Measurement.Categorical 5 "on")).block = [sampleRecord 2 2] ∧
    (AddThenHandle (specFileManager "f1") specRegistry
      (sampleStore oneFile [sampleRecord 2 2] 100 1000) "temperature"
      (Measurement.Categorical 5 "on")).disk = oneFile :=
  ⟨rfl, Add_drops_on_registry_error (specFileManager "f1") specRegistry
    (sampleStore oneFile [sampleRecord 2 2] 100 1000) "temperature"
    (Measurement.Categorical 5 "on") "kind mismatch" sampleMeta rfl⟩

/-- Claim C10, the code at the failing input: a raw measurement with payload
`[1, 2, 3]` added under `blob` leaves a record without the payload in the
block, and a query over a range containing its timestamp returns an absent
measurement under that name, from the block and from the file alike. -/
theorem raw_measurement_read_back_absent :
    (AddThenHandle (specFileManager "f1") specRegistry freshStore "blob"
      (Measurement.Raw 5 [1, 2, 3])).block
      = [{ ID := 1, Ts := 5, Value := 0, Size := 0 }] ∧
    handleRead (specFileManager "f1") specRegistry
      (AddThenHandle (specFileManager "f1") specRegistry freshStore "blob"
        (Measurement.Raw 5 [1, 2, 3])) 0 10 passAll "blob" = [none] ∧
    handleRead (specFileManager "f1") specRegistry
      (commit (specFileManager "f1")
        (AddThenHandle (specFileManager "f1") specRegistry freshStore "blob"
          (Measurement.Raw 5 [1, 2, 3]))) 0 10 passAll "blob" = [none] := by
  decide

/-- The contribution of a record depends on the store through its registry only. -/
theorem contribution_of_meta_eq {D2 : Type} (reg : Registry M V) (s : DiskStore M D V)
    (s2 : DiskStore M D2 V) (hmeta : s2.meta = s.meta) (start end_ : Int)
    (filter : FilterCollection V) (n : String) (r : SerializedMeasurement V) :
    contribution reg s2 start end_ filter n r = contribution reg s start end_ filter n r := by
  unfold contribution appendPassingMeasurement
  rw [hmeta]

/-- The scan of a block depends on the store through its registry only. -/
theorem scanBlock_of_meta_eq {D2 : Type} (reg : Registry M V) (s : DiskStore M D V)
    (s2 : DiskStore M D2 V) (hmeta : s2.meta = s.meta) (start end_ : Int)
    (filter : FilterCollection V) (n : String) (b : Block V) :
    scanBlock reg s2 start end_ filter n b = scanBlock reg s start end_ filter n b := by
  unfold scanBlock
  congr 1
  funext r
  exact contribution_of_meta_eq reg s s2 hmeta start end_ filter n r

/-- A record outside the range contributes nothing. -/
theorem contribution_out_of_range (reg : Registry M V) (s : DiskStore M D V)
    (start end_ : Int) (filter : FilterCollection V) (n : String)
    (r : SerializedMeasurement V) (hout : r.Ts < start ∨ r.Ts > end_) :
    contribution reg s start end_ filter n r = [] := by
  unfold contribution appendPassingMeasurement readResult.empty
  simp only []
  rw [if_pos hout]
  split_ifs <;> rfl

/-- A block whose records all lie outside the range contributes nothing. -/
theorem scanBlock_out_of_range (reg : Registry M V) (s : DiskStore M D V)
    (start end_ : Int) (filter : FilterCollection V) (n : String) (b : Block V)
    (hout : ∀ r ∈ b, r.Ts < start ∨ r.Ts > end_) :
    scanBlock reg s start end_ filter n b = [] := by
  unfold scanBlock
  rw [List.flatMap_eq_nil_iff]
  intro r hr
  exact contribution_out_of_range reg s start end_ filter n r (hout r hr)

/-- The scan of a concatenation is the concatenation of the scans. -/
theorem scanBlock_append (reg : Registry M V) (s : DiskStore M D V)
    (start end_ : Int) (filter : FilterCollection V) (n : String) (a b : Block V) :
    scanBlock reg s start end_ filter n (a ++ b)
      = scanBlock reg s start end_ filter n a ++ scanBlock reg s start end_ filter n b := by
  unfold scanBlock
  simp [List.flatMap_append]

/-- A commit leaves the registry as it was. -/
theorem commit_meta (fm : FileManager D V) (s : DiskStore M D V) :
    (commit fm s).meta = s.meta := by
  unfold commit
  split_ifs
  · rfl
  · split
    · rfl
    · rfl
    · simp only []
      split_ifs <;> rfl

/-- With distinct file names, a file of the directory is determined by its name. -/
theorem file_of_name (d : List (DataFile V)) (hnames : (d.map DataFile.name).Nodup)
    (f g : DataFile V) (hf : f ∈ d) (hg : g ∈ d) (hname : g.name = f.name) : g = f :=
  List.inj_on_of_nodup_map hnames hg hf hname

/-- Reading a listed file of the reference directory yields its records. -/
theorem ReadFile_spec (newName : String) (d : List (DataFile V))
    (hnames : (d.map DataFile.name).Nodup) (f : DataFile V) (hf : f ∈ d) :
    (specFileManager newName).ReadFile (DataFile.info f).name d = .ok f.records := by
  show (match d.find? (fun g => decide (g.name = f.name)) with
    | some g => Except.ok g.records
    | none => Except.error "no such file") = _
  cases hfind : d.find? (fun g => decide (g.name = f.name)) with
  | none =>
    have := List.find?_eq_none.mp hfind f hf
    simp at this
  | some g =>
    have hg := List.mem_of_find?_eq_some hfind
    have hname := List.find?_some hfind
    simp only [decide_eq_true_eq] at hname
    rw [file_of_name d hnames f g hf hg hname]

/-- The loop of `handleRead` over files of the reference directory appends, under
each name, the scans of those files in order. -/
theorem read_files_apply (newName : String) (reg : Registry M V)
    (s : DiskStore M (List (DataFile V)) V)
    (hnames : (s.disk.map DataFile.name).Nodup) (start end_ : Int)
    (filter : FilterCollection V) (n : String) (sub : List (DataFile V))
    (hsub : ∀ f ∈ sub, f ∈ s.disk) (result : readResult V) :
    (sub.map DataFile.info).foldl (fun result file =>
        match (specFileManager newName).ReadFile file.name s.disk with
        | .error _ => result
        | .ok block => appendPassingMeasurements reg s block start end_ filter result)
      result n
      = result n ++ sub.flatMap (fun f => scanBlock reg s start end_ filter n f.records) := by
  induction sub generalizing result with
  | nil => simp
  | cons f rest ih =>
    rw [List.map_cons, List.foldl_cons,
      ReadFile_spec newName s.disk hnames f (hsub f (List.mem_cons_self f rest))]
    simp only []
    rw [ih (fun g hg => hsub g (List.mem_cons_of_mem f hg)), appendPassingMeasurements_apply,
      List.flatMap_cons, List.append_assoc]
    rfl

/-- The answer of `handleRead` over the reference directory, name by name: the
scans of the selected files, oldest first, and then that of the buffered block
when the final test lets it in. -/
theorem handleRead_spec (newName : String) (reg : Registry M V)
    (s : DiskStore M (List (DataFile V)) V)
    (hnames : (s.disk.map DataFile.name).Nodup) (start end_ : Int)
    (filter : FilterCollection V) (n : String) :
    handleRead (specFileManager newName) reg s start end_ filter n
      = (s.disk.filter (fun f => FileInfo.overlaps start end_ (DataFile.info f))).flatMap
          (fun f => scanBlock reg s start end_ filter n f.records)
        ++ (if scansBuffer ((s.disk.map DataFile.info).filter (FileInfo.overlaps start end_)) end_
            then scanBlock reg s start end_ filter n s.block else []) := by
  have hsel : (s.disk.map DataFile.info).filter (FileInfo.overlaps start end_)
      = (s.disk.filter (fun f => FileInfo.overlaps start end_ (DataFile.info f))).map
          DataFile.info := by
    rw [List.filter_map]
    rfl
  have hfiles := fun result => read_files_apply newName reg s hnames start end_ filter n
    (s.disk.filter (fun f => FileInfo.overlaps start end_ (DataFile.info f)))
    (fun f hf => List.mem_of_mem_filter hf) result
  unfold handleRead scansBuffer
  show (match (Except.ok ((s.disk.map DataFile.info).filter (FileInfo.overlaps start end_)) :
      Except String (List FileInfo)) with
    | .error _ => readResult.empty
    | .ok files => _) n = _
  simp only []
  rw [hsel]
  cases hlast : ((s.disk.filter (fun f => FileInfo.overlaps start end_ (DataFile.info f))).map
      DataFile.info).getLast? with
  | none =>
    simp only [if_true]
    rw [appendPassingMeasurements_apply, hfiles]
    rfl
  | some lastFile =>
    simp only []
    by_cases hend : end_ > lastFile.latestTs
    · rw [if_pos hend, appendPassingMeasurements_apply, hfiles]
      simp [hend, scanBlock, readResult.empty]
    · rw [if_neg hend, hfiles]
      simp [hend, readResult.empty]

/-- A file whose descriptor covers its records and does not overlap the range
contributes nothing. -/
theorem scanBlock_of_not_overlaps (reg : Registry M V) (s : DiskStore M D V)
    (start end_ : Int) (filter : FilterCollection V) (n : String) (f : DataFile V)
    (hcov : Covered f) (hno : FileInfo.overlaps start end_ (DataFile.info f) = false) :
    scanBlock reg s start end_ filter n f.records = [] := by
  apply scanBlock_out_of_range
  intro r hr
  have hc := hcov r hr
  unfold FileInfo.overlaps at hno
  simp only [Bool.and_eq_false_iff, decide_eq_false_iff_not, not_le] at hno
  rcases hno with h | h
  · exact Or.inr (by omega)
  · exact Or.inl (by omega)

/-- When descriptors cover their records, scanning the selected files gives what
scanning all files would give. -/
theorem selected_scan_eq (reg : Registry M V) (s : DiskStore M D V)
    (start end_ : Int) (filter : FilterCollection V) (n : String) (d : List (DataFile V))
    (hcov : ∀ f ∈ d, Covered f) :
    (d.filter (fun f => FileInfo.overlaps start end_ (DataFile.info f))).flatMap
        (fun f => scanBlock reg s start end_ filter n f.records)
      = d.flatMap (fun f => scanBlock reg s start end_ filter n f.records) := by
  induction d with
  | nil => rfl
  | cons f rest ih =>
    have ih2 := ih (fun g hg => hcov g (List.mem_cons_of_mem f hg))
    by_cases hsel : FileInfo.overlaps start end_ (DataFile.info f) = true
    · rw [List.filter_cons_of_pos (by exact hsel), List.flatMap_cons, List.flatMap_cons, ih2]
    · have hno : FileInfo.overlaps start end_ (DataFile.info f) = false := by
        simpa using hsel
      rw [List.filter_cons_of_neg (by exact hsel), List.flatMap_cons, ih2,
        scanBlock_of_not_overlaps reg s start end_ filter n f
          (hcov f (List.mem_cons_self f rest)) hno]
      rfl

/-- The directory after a commit of a non-empty block that removes no file: the
block is the contents of a new last file, or was added to the newest file. -/
theorem commit_spec_keeping (newName : String) (s : DiskStore M (List (DataFile V)) V)
    (hne : s.block ≠ [])
    (hnames : (s.disk.map DataFile.name).Nodup)
    (hfresh : newName ∉ s.disk.map DataFile.name)
    (hkeep : ∀ f ∈ s.disk,
      f.name ∈ (commit (specFileManager newName) s).disk.map DataFile.name) :
    (commit (specFileManager newName) s).disk = s.disk ++ [DataFile.mk newName s.block] ∨
    ∃ older newest, s.disk = older ++ [newest] ∧
      (commit (specFileManager newName) s).disk
        = older ++ [DataFile.mk newest.name (newest.records ++ s.block)] := by
  cases hd : s.disk with
  | nil =>
    left
    rw [commit_spec_first newName s hne hd]
    rfl
  | cons oldest rest =>
    have hcons : oldest :: rest ≠ [] := List.cons_ne_nil oldest rest
    have hsplit : s.disk = (oldest :: rest).dropLast ++ [(oldest :: rest).getLast hcons] := by
      rw [hd, List.dropLast_append_getLast hcons]
    by_cases hsmall :
        (DataFile.info ((oldest :: rest).getLast hcons)).size < s.maxFileSize
    · right
      refine ⟨(oldest :: rest).dropLast, (oldest :: rest).getLast hcons,
        (List.dropLast_append_getLast hcons).symm, ?_⟩
      exact (commit_spec_append_disk newName s hne hnames _ _ hsplit hsmall)
    · left
      have hlast : s.disk.getLast? = some ((oldest :: rest).getLast hcons) := by
        rw [hd, List.getLast?_eq_getLast _ hcons]
      have hrot := commit_spec_rotate newName s hne oldest rest _ hd hlast (not_lt.mp hsmall)
      by_cases hbig : TotalSize (s.disk.map DataFile.info) > s.maxDiskSize
      · exfalso
        have hmem := hkeep oldest (hd ▸ List.mem_cons_self oldest rest)
        rw [hrot] at hmem
        simp only [] at hmem
        rw [if_pos hbig, hd,
          remove_oldest oldest rest (DataFile.mk newName s.block) (hd ▸ hnames)
            (hd ▸ hfresh)] at hmem
        rw [hd, List.map_cons, List.nodup_cons] at hnames
        rw [hd, List.map_cons, List.mem_cons, not_or] at hfresh
        rw [List.map_append, List.mem_append] at hmem
        rcases hmem with h | h
        · exact hnames.1 h
        · simp only [List.map_cons, List.map_nil, List.mem_singleton] at h
          exact hfresh.1 h.symm
      · rw [hrot]
        simp only []
        rw [if_neg hbig, hd]

/-- A commit that removes no file leaves every answer of `handleRead` as it was,
provided the descriptors cover their records before and after it and the
buffered block either is scanned before the commit or lies outside the range. -/
theorem handleRead_commit_of_covered (newName : String) (reg : Registry M V)
    (s : DiskStore M (List (DataFile V)) V) (start end_ : Int)
    (filter : FilterCollection V)
    (hne : s.block ≠ [])
    (hnames : (s.disk.map DataFile.name).Nodup)
    (hfresh : newName ∉ s.disk.map DataFile.name)
    (hcov : ∀ f ∈ s.disk, Covered f)
    (hcov2 : ∀ f ∈ (commit (specFileManager newName) s).disk, Covered f)
    (hkeep : ∀ f ∈ s.disk,
      f.name ∈ (commit (specFileManager newName) s).disk.map DataFile.name)
    (hscan : scansBuffer ((s.disk.map DataFile.info).filter (FileInfo.overlaps start end_))
        end_ = true ∨ ∀ r ∈ s.block, r.Ts < start ∨ r.Ts > end_) :
    handleRead (specFileManager newName) reg (commit (specFileManager newName) s)
        start end_ filter
      = handleRead (specFileManager newName) reg s start end_ filter := by
  funext n
  have hblock2 : (commit (specFileManager newName) s).block = [] :=
    commit_block_of_listed (specFileManager newName) s (s.disk.map DataFile.info) rfl
  have hmeta := commit_meta (specFileManager newName) s
  have hscan2 : ∀ b : Block V,
      scanBlock reg (commit (specFileManager newName) s) start end_ filter n b
        = scanBlock reg s start end_ filter n b :=
    fun b => scanBlock_of_meta_eq reg s _ hmeta start end_ filter n b
  have hbefore : handleRead (specFileManager newName) reg s start end_ filter n
      = s.disk.flatMap (fun f => scanBlock reg s start end_ filter n f.records)
        ++ scanBlock reg s start end_ filter n s.block := by
    rw [handleRead_spec newName reg s hnames, selected_scan_eq reg s start end_ filter n _ hcov]
    rcases hscan with h | h
    · rw [if_pos h]
    · rw [scanBlock_out_of_range reg s start end_ filter n s.block h]
      simp
  have hnames2 : ((commit (specFileManager newName) s).disk.map DataFile.name).Nodup := by
    rcases commit_spec_keeping newName s hne hnames hfresh hkeep with
      hd | ⟨older, newest, hdisk, hd⟩
    · rw [hd, List.map_append, List.nodup_append]
      refine ⟨hnames, by simp, ?_⟩
      intro a ha hb
      simp only [List.map_cons, List.map_nil, List.mem_singleton] at hb
      exact hfresh (hb ▸ ha)
    · rw [hd]
      rw [hdisk] at hnames
      simpa using hnames
  rw [hbefore, handleRead_spec newName reg _ hnames2,
    selected_scan_eq reg _ start end_ filter n _ hcov2, hblock2]
  have hnil : scanBlock reg (commit (specFileManager newName) s) start end_ filter n [] = [] :=
    rfl
  rw [hnil, ite_self, List.append_nil]
  simp only [hscan2]
  rcases commit_spec_keeping newName s hne hnames hfresh hkeep with
    hd | ⟨older, newest, hdisk, hd⟩
  · rw [hd, List.flatMap_append]
    simp
  · rw [hd, hdisk, List.flatMap_append, List.flatMap_append]
    simp [scanBlock_append]

/-- The descriptor of a file whose timestamps never decrease covers its records. -/
theorem Covered_of_sorted (f : DataFile V)
    (hsorted : f.records.Pairwise (fun a b => a.Ts ≤ b.Ts)) : Covered f := by
  intro r hr
  have hrec : f.records ≠ [] := List.ne_nil_of_mem hr
  constructor
  · unfold DataFile.info
    simp only []
    cases hb : f.records with
    | nil => exact absurd hb hrec
    | cons x xs =>
      rw [hb] at hsorted hr
      simp only [List.head?_cons, Option.map_some', Option.getD_some]
      rcases List.mem_cons.mp hr with h | h
      · rw [h]
      · exact (List.pairwise_cons.mp hsorted).1 r h
  · unfold DataFile.info
    simp only []
    rw [List.getLast?_eq_getLast _ hrec]
    simp only [Option.map_some', Option.getD_some]
    have hsplit := List.dropLast_append_getLast hrec
    rw [← hsplit] at hsorted hr
    rcases List.mem_append.mp hr with h | h
    · exact (List.pairwise_append.mp hsorted).2.2 r h _ (List.mem_singleton.mpr rfl)
    · rw [List.mem_singleton.mp h]

/-- The latest timestamp of a file that is not empty is the timestamp of one of
its records. -/
theorem latestTs_mem (f : DataFile V) (hrec : f.records ≠ []) :
    ∃ r ∈ f.records, (DataFile.info f).latestTs = r.Ts := by
  refine ⟨f.records.getLast hrec, List.getLast_mem hrec, ?_⟩
  unfold DataFile.info
  simp only []
  rw [List.getLast?_eq_getLast _ hrec]
  rfl

/-- Where `handleRead` does see through a commit. Over the reference directory
with distinct file names and no empty file, when timestamps never decrease
inside a file or inside the block, every record of the block is strictly later
than every record on disk, and the commit removes no file, `handleRead` answers
every range and filter the same before and after the commit of a non-empty
block. The strictness cannot be dropped: a buffered record at the very
timestamp the newest file ends with is left out of a range ending there. -/
theorem handleRead_commit_transparent (newName : String) (reg : Registry M V)
    (s : DiskStore M (List (DataFile V)) V) (start end_ : Int)
    (filter : FilterCollection V)
    (hne : s.block ≠ [])
    (hnames : (s.disk.map DataFile.name).Nodup)
    (hfresh : newName ∉ s.disk.map DataFile.name)
    (hnonempty : ∀ f ∈ s.disk, f.records ≠ [])
    (hsorted : ∀ f ∈ s.disk, f.records.Pairwise (fun a b => a.Ts ≤ b.Ts))
    (hblock : s.block.Pairwise (fun a b => a.Ts ≤ b.Ts))
    (hnewer : ∀ f ∈ s.disk, ∀ r ∈ f.records, ∀ b ∈ s.block, r.Ts < b.Ts)
    (hkeep : ∀ f ∈ s.disk,
      f.name ∈ (commit (specFileManager newName) s).disk.map DataFile.name) :
    handleRead (specFileManager newName) reg (commit (specFileManager newName) s)
        start end_ filter
      = handleRead (specFileManager newName) reg s start end_ filter := by
  apply handleRead_commit_of_covered newName reg s start end_ filter hne hnames hfresh
  · intro f hf
    exact Covered_of_sorted f (hsorted f hf)
  · intro f hf
    apply Covered_of_sorted
    rcases commit_spec_keeping newName s hne hnames hfresh hkeep with
      hd | ⟨older, newest, hdisk, hd⟩
    · rw [hd] at hf
      rcases List.mem_append.mp hf with h | h
      · exact hsorted f h
      · rw [List.mem_singleton.mp h]
        exact hblock
    · rw [hd] at hf
      have hnewest : newest ∈ s.disk := by simp [hdisk]
      rcases List.mem_append.mp hf with h | h
      · exact hsorted f (hdisk ▸ List.mem_append_left _ h)
      · rw [List.mem_singleton.mp h]
        exact List.pairwise_append.mpr ⟨hsorted newest hnewest, hblock,
          fun a ha b hb => le_of_lt (hnewer newest hnewest a ha b hb)⟩
  · exact hkeep
  · by_cases hout : ∀ r ∈ s.block, r.Ts < start ∨ r.Ts > end_
    · exact Or.inr hout
    · left
      push_neg at hout
      obtain ⟨b, hb, hb1, hb2⟩ := hout
      unfold scansBuffer
      cases hlast : ((s.disk.map DataFile.info).filter
          (FileInfo.overlaps start end_)).getLast? with
      | none => rfl
      | some lastFile =>
        simp only [decide_eq_true_eq]
        have hmem := List.mem_of_mem_filter (List.mem_of_getLast?_eq_some hlast)
        obtain ⟨f, hf, hinfo⟩ := List.mem_map.mp hmem
        obtain ⟨r, hr, hts⟩ := latestTs_mem f (hnonempty f hf)
        rw [← hinfo, hts]
        have := hnewer f hf r hr b hb
        omega

/-- Claim C5, the code at the failing input. The state is reached from a fresh
store by adding the `temperature` measurements at timestamps 10 and 20,
committing them to the file `f0`, and adding one more measurement at timestamp
20, which stays in the block. The range `[0, 20]` includes that buffered
record, yet `handleRead` leaves it out, because the range does not end after
the latest timestamp of `f0`; after the next commit, which removes no file, the
same query returns it. -/
theorem handleRead_misses_buffered_record :
    AddThenHandle (specFileManager "f0") specRegistry
        (commit (specFileManager "f0")
          (AddThenHandle (specFileManager "f0") specRegistry
            (AddThenHandle (specFileManager "f0") specRegistry freshStore "temperature"
              (Measurement.Numerical 10 1))
            "temperature" (Measurement.Numerical 20 2)))
        "temperature" (Measurement.Numerical 20 3)
      = sameInstantStore ∧
    (sameInstantStore.block = [sampleRecord 20 3] ∧
      sameInstantStore.disk.map DataFile.name = ["f0"] ∧
      (commit (specFileManager "f1") sameInstantStore).disk.map DataFile.name = ["f0"]) ∧
    handleRead (specFileManager "f1") specRegistry sameInstantStore 0 20 passAll "temperature"
      = [some (Measurement.Numerical 10 1), some (Measurement.Numerical 20 2)] ∧
    handleRead (specFileManager "f1") specRegistry
        (commit (specFileManager "f1") sameInstantStore) 0 20 passAll "temperature"
      = [some (Measurement.Numerical 10 1), some (Measurement.Numerical 20 2),
         some (Measurement.Numerical 20 3)] :=
  ⟨rfl, by decide, by decide, by decide⟩

/-- An instance of `handleRead_commit_transparent`: one file with a record at
timestamp 1 and a block with a record at timestamp 2, queried over `[0, 5]`. -/
theorem handleRead_commit_transparent_witness :
    ((sampleStore oneFile [sampleRecord 2 2] 100 1000).block ≠ [] ∧
      ((sampleStore oneFile [sampleRecord 2 2] 100 1000).disk.map DataFile.name).Nodup ∧
      "f1" ∉ (sampleStore oneFile [sampleRecord 2 2] 100 1000).disk.map DataFile.name ∧
      (∀ f ∈ (sampleStore oneFile [sampleRecord 2 2] 100 1000).disk, f.records ≠ []) ∧
      (∀ f ∈ (sampleStore oneFile [sampleRecord 2 2] 100 1000).disk,
        f.records.Pairwise (fun a b => a.Ts ≤ b.Ts)) ∧
      (sampleStore oneFile [sampleRecord 2 2] 100 1000).block.Pairwise
        (fun a b => a.Ts ≤ b.Ts) ∧
      (∀ f ∈ (sampleStore oneFile [sampleRecord 2 2] 100 1000).disk, ∀ r ∈ f.records,
        ∀ b ∈ (sampleStore oneFile [sampleRecord 2 2] 100 1000).block, r.Ts < b.Ts) ∧
      (∀ f ∈ (sampleStore oneFile [sampleRecord 2 2] 100 1000).disk,
        f.name ∈ (commit (specFileManager "f1")
          (sampleStore oneFile [sampleRecord 2 2] 100 1000)).disk.map DataFile.name)) ∧
    handleRead (specFileManager "f1") specRegistry
        (commit (specFileManager "f1") (sampleStore oneFile [sampleRecord 2 2] 100 1000))
        0 5 passAll
      = handleRead (specFileManager "f1") specRegistry
          (sampleStore oneFile [sampleRecord 2 2] 100 1000) 0 5 passAll :=
  ⟨⟨by decide, by decide, by decide, by decide, by decide, by decide, by decide, by decide⟩,
    handleRead_commit_transparent "f1" specRegistry
      (sampleStore oneFile [sampleRecord 2 2] 100 1000) 0 5 passAll
      (by decide) (by decide) (by decide) (by decide) (by decide) (by decide) (by decide)
      (by decide)⟩

/-- Witness for claim C1: the five records of the series test, timestamps 1000
to 1040 with values 10 to 14; the range `[1005, 1035]` gives 11, 12, 13 and the
range `[1025, 4000]` gives 13, 14, in that order. -/
theorem appendPassingMeasurements_numerical_range_witness :
    ((∀ r ∈ sampleBlock, specRegistry.GetNameForID (sampleStore [] [] 0 0).meta r.ID ≠ "" ∧
        specRegistry.GetTypeForID (sampleStore [] [] 0 0).meta r.ID
          = MeasurementType.MeasurementNumerical) ∧
      (∀ n m, (passAll : FilterCollection Int) n m = true)) ∧
    appendPassingMeasurements specRegistry (sampleStore [] [] 0 0) sampleBlock 1005 1035
        passAll readResult.empty "temperature"
      = [some (Measurement.Numerical 1010 11), some (Measurement.Numerical 1020 12),
         some (Measurement.Numerical 1030 13)] ∧
    appendPassingMeasurements specRegistry (sampleStore [] [] 0 0) sampleBlock 1025 4000
        passAll readResult.empty "temperature"
      = [some (Measurement.Numerical 1030 13), some (Measurement.Numerical 1040 14)] :=
  ⟨⟨by decide, fun _ _ => rfl⟩,
    (appendPassingMeasurements_numerical_range specRegistry (sampleStore [] [] 0 0) sampleBlock
      1005 1035 passAll readResult.empty "temperature" (by decide) (fun _ _ => rfl)).trans
      (by decide),
    (appendPassingMeasurements_numerical_range specRegistry (sampleStore [] [] 0 0) sampleBlock
      1025 4000 passAll readResult.empty "temperature" (by decide) (fun _ _ => rfl)).trans
      (by decide)⟩

end Theorems

end Mhist
